import Mathlib

/-!
Verification development for the Allegro5 WAV reader/writer
(src/addons/audio/wav.c).

The byte-stream primitives (`al_fgetc`, `al_fread`, `al_fseek`, `al_ftell`)
are modelled over an in-memory seekable file: a list of bytes together with
a read cursor.  C `double` times are modelled as rationals, C `int`
arithmetic as `Int` with the C truncating division `Int.tdiv`, and sizes
(`size_t`) as `Nat`.
-/

namespace Wav

/-- A seekable byte stream: the file contents and the read cursor.
Mirrors the `ALLEGRO_FILE` usage in wav.c (sequential reads, tell, seek). -/
structure File where
  data : List Nat
  pos : Nat
deriving DecidableEq, Repr

/-- Model of `al_fgetc`: return the byte at the cursor and advance, or
EOF (`none`) without moving when the cursor is at or past the end. -/
def fgetc (f : File) : Option Nat × File :=
  match f.data[f.pos]? with
  | some b => (some b, ⟨f.data, f.pos + 1⟩)
  | none => (none, f)

/-- Model of `al_fread f buf n`: read `min n available` bytes, returning the
bytes read, their count, and the advanced file. -/
def fread (f : File) (n : Nat) : List Nat × Nat × File :=
  let cnt := min n (f.data.length - f.pos)
  ((f.data.drop f.pos).take cnt, cnt, ⟨f.data, f.pos + cnt⟩)

/-- Model of `al_fseek f off ALLEGRO_SEEK_CUR`: move the cursor by `off`.
A seek to a negative absolute position fails and leaves the cursor
unchanged (wav.c ignores the returned status of these seeks). -/
def fseekCur (f : File) (off : Int) : File :=
  if (f.pos : Int) + off < 0 then f else ⟨f.data, ((f.pos : Int) + off).toNat⟩

/-- Model of `al_fseek f p ALLEGRO_SEEK_SET`: position the cursor
absolutely; fails (returns `false`, cursor unchanged) on a negative target. -/
def fseekSet (f : File) (p : Int) : Bool × File :=
  if p < 0 then (false, f) else (true, ⟨f.data, p.toNat⟩)

/-- Reinterpret a nonnegative integer as a signed 16-bit value, as the C
assignment of `a | (b << 8)` to a `signed short` does. -/
def toS16 (x : Nat) : Int :=
  if x % 65536 < 32768 then (x % 65536 : Nat) else (x % 65536 : Nat) - 65536

/-- Reinterpret a nonnegative integer as a signed 32-bit value, as the C
assignment of `a | (b << 8) | (c << 16) | (d << 24)` to an `int` does. -/
def toS32 (x : Nat) : Int :=
  if x % 4294967296 < 2147483648 then (x % 4294967296 : Nat)
  else (x % 4294967296 : Nat) - 4294967296

/-- Model of `read16` in wav.c: read a signed 16-bit little-endian value.
Returns `none` exactly when the second `al_fgetc` hits EOF (in which case
the C code leaves the output variable unassigned).  The first byte can
only be EOF when the second one is, so `getD 0` below is never the value
actually produced on the success path. -/
def read16 (f : File) : Option Int × File :=
  let t1 := fgetc f
  let t2 := fgetc t1.2
  match t2.1 with
  | some bv => (some (toS16 (t1.1.getD 0 + 256 * bv)), t2.2)
  | none => (none, t2.2)

/-- Model of `read32` in wav.c: read a signed 32-bit little-endian value.
Returns `none` exactly when the fourth `al_fgetc` hits EOF. -/
def read32 (f : File) : Option Int × File :=
  let t1 := fgetc f
  let t2 := fgetc t1.2
  let t3 := fgetc t2.2
  let t4 := fgetc t3.2
  match t4.1 with
  | some dv =>
      (some (toS32 (t1.1.getD 0 + 256 * t2.1.getD 0 + 65536 * t3.1.getD 0 + 16777216 * dv)), t4.2)
  | none => (none, t4.2)

/-- The bytes of the ASCII tag "RIFF". -/
def riffTag : List Nat := [82, 73, 70, 70]

/-- The bytes of the ASCII tag "WAVE". -/
def waveTag : List Nat := [87, 65, 86, 69]

/-- The bytes of the ASCII tag "fmt " (with trailing space). -/
def fmtTag : List Nat := [102, 109, 116, 32]

/-- The bytes of the ASCII tag "data". -/
def dataTag : List Nat := [100, 97, 116, 97]

/-- Little-endian serialization of a 16-bit value (`al_fwrite16le`),
truncating larger inputs as the C cast does. -/
def u16le (v : Nat) : List Nat := [v % 256, v / 256 % 256]

/-- Little-endian serialization of a 32-bit value (`al_fwrite32le`),
truncating larger inputs as the C cast does. -/
def u32le (v : Nat) : List Nat :=
  [v % 256, v / 256 % 256, v / 65536 % 256, v / 16777216 % 256]

/-- Little-endian serialization of a signed 16-bit value (two's
complement), as `al_fwrite16le` on an `int16_t` / raw `short` memory. -/
def s16le (v : Int) : List Nat := u16le (v % 65536).toNat

/-- The `WAVFILE` struct of wav.c, minus the embedded `ALLEGRO_FILE`
pointer (the `File` is passed alongside explicitly).  `loop_start` and
`loop_end` are uninitialized in C until `al_load_wav_audio_stream` or
`wav_stream_set_loop` store them; the model initializes them to 0. -/
structure WAVFILE where
  dpos : Nat
  freq : Int
  bits : Int
  channels : Int
  samples : Int
  loop_start : ℚ
  loop_end : ℚ
deriving DecidableEq, Repr

/-- The outcome of one iteration of the chunk-scanning loop of
`wav_open`: abort with an error, stop at the data chunk, or continue
scanning with updated format fields. -/
inductive ChunkStep where
  | fail
  | done (w : WAVFILE) (f : File)
  | next (w : WAVFILE) (f : File)
deriving DecidableEq, Repr

/-- One iteration of the chunk-scanning loop of `wav_open` (the body of
the `while (true)` loop, wav.c lines 98-147): read a chunk tag, then
either parse a fmt chunk, stop at a data chunk, or skip an unknown
chunk. -/
def chunkStep (w : WAVFILE) (f : File) : ChunkStep :=
  let t0 := fread f 4
  let tag := t0.1
  let cnt := t0.2.1
  let f := t0.2.2
  if cnt ≠ 4 then .fail
  else if tag = fmtTag then
    let t1 := read32 f
    let length : Int := t1.1.getD 0
    let f := t1.2
    if length < 16 then .fail
    else
      let t2 := read16 f
      let pcm : Int := t2.1.getD 0
      let f := t2.2
      if pcm ≠ 1 then .fail
      else
        let t3 := read16 f
        let w : WAVFILE := { w with channels := t3.1.getD w.channels }
        let f := t3.2
        if w.channels ≠ 1 ∧ w.channels ≠ 2 then .fail
        else
          let t4 := read32 f
          let w : WAVFILE := { w with freq := t4.1.getD w.freq }
          let f := fseekCur t4.2 6
          let t5 := read16 f
          let w : WAVFILE := { w with bits := t5.1.getD w.bits }
          let f := t5.2
          if w.bits ≠ 8 ∧ w.bits ≠ 16 then .fail
          else
            let length := length - 16
            let f := if 0 < length then fseekCur f length else f
            .next w f
  else if tag = dataTag then .done w f
  else
    let t6 := read32 f
    .next w (fseekCur t6.2 (t6.1.getD 0))

/-- The chunk-scanning loop of `wav_open` (wav.c lines 98-147): iterate
`chunkStep` until a data chunk is found.  The C loop can run forever on
adversarial inputs (a chunk whose declared length seeks backwards to a
previously visited position); `fuel` bounds the number of iterations, and
`wav_open` passes enough fuel to cover every terminating C execution (a
terminating run never revisits a cursor position, so it takes at most
`data.length + 2` iterations). -/
def parseChunks : Nat -> WAVFILE -> File -> Option (WAVFILE × File)
  | 0, _, _ => none
  | fuel + 1, w, f =>
    match chunkStep w f with
    | .fail => none
    | .done w f => some (w, f)
    | .next w f => parseChunks fuel w f

/-- Model of `wav_open` (wav.c lines 69-172).  `junk` stands for the
uninitialized contents of the freshly `malloc`ed `samples` field: the C
code ignores the result of the `read32` that is supposed to fill it, so
on a stream that ends inside that field the field keeps its garbage
value. -/
def wav_open (junk : Int) (bytes : List Nat) : Option (WAVFILE × File) :=
  let f : File := ⟨bytes, 0⟩
  let w : WAVFILE := ⟨0, 22050, 8, 1, junk, 0, 0⟩
  let t0 := fread f 12
  let hdr := t0.1
  if t0.2.1 ≠ 12 then none
  else if ¬(hdr.take 4 = riffTag ∧ hdr.drop 8 = waveTag) then none
  else
    match parseChunks (bytes.length + 2) w t0.2.2 with
    | none => none
    | some p =>
      let t1 := read32 p.2
      let w : WAVFILE := { p.1 with samples := t1.1.getD p.1.samples }
      let w : WAVFILE := if w.channels = 2 then { w with samples := (w.samples + 1).tdiv 2 } else w
      let w : WAVFILE := if w.bits = 16 then { w with samples := w.samples.tdiv 2 } else w
      some ({ w with dpos := t1.2.pos }, t1.2)

/-- The 16-bit read loop of `wav_read` (wav.c lines 190-202): read up to
`n` signed 16-bit values, stopping early at EOF.  Returns the values read
(in order) and the advanced file. -/
def readS16Loop : Nat → File → List Int × File
  | 0, f => ([], f)
  | n + 1, f =>
    let t := read16 f
    match t.1 with
    | some v =>
      let res := readS16Loop n t.2
      (v :: res.1, res.2)
    | none => ([], t.2)

/-- Model of `wav_read` (wav.c lines 179-204): decode up to `samples`
sample frames.  Returns the raw sample values read (bytes for 8-bit,
signed 16-bit values otherwise), the number of whole frames decoded, and
the advanced file. -/
def wav_read (w : WAVFILE) (f : File) (samples : Nat) : List Int × Nat × File :=
  let n := w.channels.toNat * samples
  if w.bits = 8 then
    let t := fread f n
    (t.1.map Int.ofNat, t.2.1 / w.channels.toNat, t.2.2)
  else
    let t := readS16Loop n f
    (t.1, t.1.length / w.channels.toNat, t.2)

/-- Model of `wav_stream_seek` (wav.c lines 219-228).  The stream time is
a C `double`, modelled as a rational; the C cast of the (nonnegative)
product to `unsigned long` truncates toward zero, i.e. takes the floor. -/
def wav_stream_seek (w : WAVFILE) (f : File) (time : ℚ) : Bool × File :=
  let align : Int := w.bits.tdiv 8 * w.channels
  let cpos : Nat := (⌊time * ((w.freq * w.bits.tdiv 8 * w.channels : Int) : ℚ)⌋).toNat
  if w.loop_end ≤ time then (false, f)
  else
    let cpos := cpos + cpos % align.toNat
    fseekSet f ((w.dpos : Int) + cpos)

/-- Model of `wav_stream_set_loop` (wav.c lines 258-264): store both loop
bounds unconditionally and report success. -/
def wav_stream_set_loop (w : WAVFILE) (s e : ℚ) : WAVFILE × Bool :=
  ({ w with loop_start := s, loop_end := e }, true)

/-- The sample depth tags of `ALLEGRO_AUDIO_DEPTH` that the WAV encoder
claims under scrutiny exercise (integer PCM depths; the 24-bit and
float32 branches of `al_save_wav_stream` go through host floating-point
arithmetic and are outside this model). -/
inductive AudioDepth where
  | int8 | uint8 | int16 | uint16
deriving DecidableEq, Repr

/-- The `ALLEGRO_SAMPLE` encoder input: depth tag, channel count (as the C
code derives it from `chan_conf`), frequency, frame count (`len`
unshifted by `MIXER_FRAC_SHIFT`), and the flat interleaved sample data. -/
structure SampleBuf where
  depth : AudioDepth
  channels : Nat
  frequency : Nat
  samples : Nat
  data : List Int
deriving DecidableEq, Repr

/-- Model of `al_save_wav_stream` (wav.c lines 408-499): serialize a
sample buffer into a complete RIFF/WAVE byte stream.  Returns `none`
where the C function returns `false` (channel count outside 1..2). -/
def al_save_wav_stream (spl : SampleBuf) : Option (List Nat) :=
  let channels := spl.channels
  let bits : Nat := match spl.depth with
    | .int8 | .uint8 => 8
    | _ => 16
  if channels < 1 ∨ channels > 2 then none
  else
    let samples := spl.samples
    let data_size := samples * channels * bits / 8
    let n := samples * channels
    let header :=
      riffTag ++ u32le (36 + data_size) ++ waveTag ++
      fmtTag ++ u32le 16 ++ u16le 1 ++ u16le channels ++ u32le spl.frequency ++
      u32le (spl.frequency * channels * bits / 8) ++ u16le (channels * bits / 8) ++
      u16le bits ++
      dataTag ++ u32le data_size
    let body : List Nat := match spl.depth with
      | .uint8 => (spl.data.take n).map (fun v => (v % 256).toNat)
      | .int16 => (spl.data.take n).flatMap s16le
      | .int8 => (spl.data.take spl.samples).map (fun v => ((v + 128) % 256).toNat)
      | .uint16 => (spl.data.take n).flatMap (fun v => s16le (v - 32768))
    some (header ++ body)

/-- The in-memory `ALLEGRO_SAMPLE` produced by `al_load_wav`: the raw
byte buffer plus the metadata passed to `al_create_sample`. -/
structure LoadedSample where
  buffer : List Nat
  len : Int
  frequency : Int
  bits : Int
  channels : Int
deriving DecidableEq, Repr

/-- Serialization of decoded sample values into the byte buffer of
`al_load_wav`: 8-bit values occupy one byte, 16-bit values two
little-endian bytes (as the `signed short` stores on a little-endian
host do). -/
def storeBytes (bits : Int) (vs : List Int) : List Nat :=
  if bits = 8 then vs.map (fun v => (v % 256).toNat) else vs.flatMap s16le

/-- Model of `al_load_wav` (wav.c lines 321-347): open, allocate a buffer
of `(bits/8) * channels * samples` bytes, zero it, then decode into its
prefix.  A negative byte count converts to an enormous `size_t`, making
the `malloc` fail, so the C function returns NULL there. -/
def al_load_wav (junk : Int) (bytes : List Nat) : Option LoadedSample :=
  match wav_open junk bytes with
  | none => none
  | some (w, f) =>
    let nI : Int := w.bits.tdiv 8 * w.channels * w.samples
    if nI < 0 then none
    else
      let n := nI.toNat
      let vs := (wav_read w f w.samples.toNat).1
      let written := storeBytes w.bits vs
      some ⟨written ++ (List.replicate n 0).drop written.length,
            w.samples, w.freq, w.bits, w.channels⟩

/-- The number of whole sample frames between the read cursor and the end
of the stream, for a given handle's frame layout. -/
def remainingFrames (w : WAVFILE) (f : File) : Nat :=
  if w.bits = 8 then (f.data.length - f.pos) / w.channels.toNat
  else (f.data.length - f.pos) / 2 / w.channels.toNat

/-- Parse a container and decode all of its frames: the values read, the
sample rate and the channel count recorded in the handle.  This is the
composition the round-trip property speaks about. -/
def decodeAll (junk : Int) (bytes : List Nat) : Option (List Int × Int × Int × Int) :=
  match wav_open junk bytes with
  | none => none
  | some (w, f) => some ((wav_read w f w.samples.toNat).1, w.freq, w.channels, w.samples)


/-- The file's cursor sits exactly between the consumed prefix `pre` and
the unread suffix `rest`. -/
def FileAt (f : File) (pre rest : List Nat) : Prop :=
  f.data = pre ++ rest ∧ f.pos = pre.length

/-- The byte stream layout that both `al_save_wav_stream` emits and
`wav_open` consumes: RIFF prefix, a single fmt chunk of declared length
16, then the data chunk with its 4-byte declared byte count and the raw
sample bytes. -/
def wavBytes (szf c freq br ba b ds : Nat) (body : List Nat) : List Nat :=
  riffTag ++ u32le szf ++ waveTag ++
  fmtTag ++ u32le 16 ++ u16le 1 ++ u16le c ++ u32le freq ++ u32le br ++ u16le ba ++ u16le b ++
  dataTag ++ u32le ds ++ body

/-- Serialize a list of (tag, payload) chunks in the container's
tag / length / payload layout. -/
def chunksBytes (cs : List (List Nat × List Nat)) : List Nat :=
  cs.foldr (fun c acc => c.1 ++ u32le c.2.length ++ c.2 ++ acc) []

/-- A well-formed container whose chunk list holds no fmt chunk: RIFF
prefix, arbitrary non-fmt non-data chunks, then the data chunk. -/
def noFmtBytes (szf : Nat) (cs : List (List Nat × List Nat)) (ds : Nat) (body : List Nat) :
    List Nat :=
  riffTag ++ u32le szf ++ waveTag ++ chunksBytes cs ++ dataTag ++ u32le ds ++ body

/-- A container truncated immediately after the "data" chunk tag: the
4-byte count field is missing entirely. -/
def truncAfterDataTag : List Nat := riffTag ++ u32le 0 ++ waveTag ++ dataTag

/-- A 16-bit stereo handle (frame size 4 bytes) with data offset 0 used
to exercise the seek arithmetic. -/
def seekW : WAVFILE := ⟨0, 1, 16, 2, 100, 0, 100⟩

/-- A file whose cursor initially sits at byte 5. -/
def seekF : File := ⟨[], 5⟩

/-- The handle produced by opening a minimal valid mono 8-bit container
with an empty data chunk. -/
def c8w : WAVFILE := ⟨44, 22050, 8, 1, 0, 0, 0⟩

/-- A stereo signed-8 sample buffer holding one frame (two sample
values). -/
def s8buf : SampleBuf := ⟨.int8, 2, 22050, 1, [10, 20]⟩

/-- A concrete stereo signed-16 sample buffer used to witness the
round-trip property. -/
def c1buf : SampleBuf := ⟨.int16, 2, 8000, 2, [5, -3, 1000, -32768]⟩

/-- A 16-bit mono handle used to witness the short-read property. -/
def c7w : WAVFILE := ⟨0, 22050, 16, 1, 100, 0, 0⟩

/-- A file holding two whole 16-bit samples and one trailing odd byte. -/
def c7f : File := ⟨[1, 0, 2, 0, 3], 0⟩

/-! ### Stepping lemmas for the byte-stream primitives -/

theorem fileAt_start (bytes : List Nat) : FileAt ⟨bytes, 0⟩ [] bytes := ⟨rfl, rfl⟩

theorem fgetc_at {f : File} {pre rest : List Nat} {b : Nat} (h : FileAt f pre (b :: rest)) :
    fgetc f = (some b, ⟨f.data, f.pos + 1⟩) ∧ FileAt ⟨f.data, f.pos + 1⟩ (pre ++ [b]) rest := by
  obtain ⟨hd, hp⟩ := h
  have hget : f.data[f.pos]? = some b := by
    rw [hd, hp, List.getElem?_append_right (le_refl _)]
    simp
  refine ⟨?_, ?_, ?_⟩
  · unfold fgetc
    rw [hget]
  · simpa using hd
  · simp [hp]

theorem read16_at {f : File} {pre rest : List Nat} {b0 b1 : Nat}
    (h : FileAt f pre (b0 :: b1 :: rest)) :
    read16 f = (some (toS16 (b0 + 256 * b1)), ⟨f.data, f.pos + 2⟩) ∧
    FileAt ⟨f.data, f.pos + 2⟩ (pre ++ [b0, b1]) rest := by
  obtain ⟨e1, h1⟩ := fgetc_at h
  obtain ⟨e2, h2⟩ := fgetc_at h1
  refine ⟨?_, ?_⟩
  · unfold read16
    rw [e1]
    simp only
    rw [e2]
    simp [Option.getD]
  · simpa [List.append_assoc] using h2

theorem read32_at {f : File} {pre rest : List Nat} {b0 b1 b2 b3 : Nat}
    (h : FileAt f pre (b0 :: b1 :: b2 :: b3 :: rest)) :
    read32 f = (some (toS32 (b0 + 256 * b1 + 65536 * b2 + 16777216 * b3)),
      ⟨f.data, f.pos + 4⟩) ∧
    FileAt ⟨f.data, f.pos + 4⟩ (pre ++ [b0, b1, b2, b3]) rest := by
  obtain ⟨e1, h1⟩ := fgetc_at h
  obtain ⟨e2, h2⟩ := fgetc_at h1
  obtain ⟨e3, h3⟩ := fgetc_at h2
  obtain ⟨e4, h4⟩ := fgetc_at h3
  refine ⟨?_, ?_⟩
  · unfold read32
    rw [e1]
    simp only
    rw [e2]
    simp only
    rw [e3]
    simp only
    rw [e4]
    simp [Option.getD]
  · simpa [List.append_assoc] using h4

theorem fread_at {f : File} {pre rest chunk : List Nat} {n : Nat}
    (hn : chunk.length = n) (h : FileAt f pre (chunk ++ rest)) :
    fread f n = (chunk, n, ⟨f.data, f.pos + n⟩) ∧
    FileAt ⟨f.data, f.pos + n⟩ (pre ++ chunk) rest := by
  obtain ⟨hd, hp⟩ := h
  have hdrop : f.data.drop f.pos = chunk ++ rest := by
    rw [hd, hp, List.drop_left]
  have hcnt : min n (f.data.length - f.pos) = n := by
    rw [hd, hp]
    simp only [List.length_append]
    omega
  refine ⟨?_, ?_, ?_⟩
  · simp only [fread]
    rw [hcnt, hdrop]
    subst hn
    simp [List.take_left]
  · rw [hd, List.append_assoc]
  · simp [hp, hn]

theorem fseekCur_at {f : File} {pre rest chunk : List Nat} {n : Nat} {k : Int}
    (hn : chunk.length = n) (hk : (n : Int) = k) (h : FileAt f pre (chunk ++ rest)) :
    fseekCur f k = ⟨f.data, f.pos + n⟩ ∧
    FileAt ⟨f.data, f.pos + n⟩ (pre ++ chunk) rest := by
  obtain ⟨hd, hp⟩ := h
  subst hk
  refine ⟨?_, ?_, ?_⟩
  · unfold fseekCur
    rw [if_neg (by omega)]
    have hcast : ((f.pos : Int) + (n : Int)).toNat = f.pos + n := by omega
    rw [hcast]
  · rw [hd, List.append_assoc]
  · simp [hp, hn]

theorem u16le_length (v : Nat) : (u16le v).length = 2 := rfl

theorem u32le_length (v : Nat) : (u32le v).length = 4 := rfl

theorem s16le_length (v : Int) : (s16le v).length = 2 := rfl

theorem toS16_small {v : Nat} (hv : v < 32768) : toS16 v = v := by
  unfold toS16
  rw [Nat.mod_eq_of_lt (by omega), if_pos hv]

theorem read16_u16le_at {f : File} {pre rest : List Nat} {v : Nat} (hv : v < 32768)
    (h : FileAt f pre (u16le v ++ rest)) :
    read16 f = (some (v : Int), ⟨f.data, f.pos + 2⟩) ∧
    FileAt ⟨f.data, f.pos + 2⟩ (pre ++ u16le v) rest := by
  have h' : FileAt f pre (v % 256 :: (v / 256 % 256) :: rest) := h
  obtain ⟨e, h2⟩ := read16_at h'
  have hval : v % 256 + 256 * (v / 256 % 256) = v := by omega
  refine ⟨?_, h2⟩
  rw [e, hval, toS16_small hv]

theorem toS32_small {v : Nat} (hv : v < 2147483648) : toS32 v = v := by
  unfold toS32
  rw [Nat.mod_eq_of_lt (by omega), if_pos hv]

theorem read32_u32le_at {f : File} {pre rest : List Nat} {v : Nat} (hv : v < 2147483648)
    (h : FileAt f pre (u32le v ++ rest)) :
    read32 f = (some (v : Int), ⟨f.data, f.pos + 4⟩) ∧
    FileAt ⟨f.data, f.pos + 4⟩ (pre ++ u32le v) rest := by
  have h' : FileAt f pre
      (v % 256 :: (v / 256 % 256) :: (v / 65536 % 256) :: (v / 16777216 % 256) :: rest) := h
  obtain ⟨e, h2⟩ := read32_at h'
  have hval : v % 256 + 256 * (v / 256 % 256) + 65536 * (v / 65536 % 256) +
      16777216 * (v / 16777216 % 256) = v := by omega
  refine ⟨?_, h2⟩
  rw [e, hval, toS32_small hv]

/-! ### One-iteration lemmas for the chunk scanner -/

/-- A fmt chunk of declared length 16 at the cursor: `chunkStep` records
the channel count, sample rate and bit depth and continues scanning 24
bytes further on. -/
theorem chunkStep_fmt {w : WAVFILE} {f : File} {pre rest : List Nat}
    {c b freq br ba : Nat}
    (hc : c = 1 ∨ c = 2) (hb : b = 8 ∨ b = 16) (hf : freq < 2147483648)
    (h : FileAt f pre (fmtTag ++ u32le 16 ++ u16le 1 ++ u16le c ++ u32le freq ++
      u32le br ++ u16le ba ++ u16le b ++ rest)) :
    chunkStep w f = .next { w with channels := (c : Int), freq := (freq : Int), bits := (b : Int) }
      ⟨f.data, f.pos + 24⟩ ∧
    FileAt ⟨f.data, f.pos + 24⟩
      (pre ++ (fmtTag ++ u32le 16 ++ u16le 1 ++ u16le c ++ u32le freq ++
        u32le br ++ u16le ba ++ u16le b)) rest := by
  have hlen : fmtTag.length = 4 := rfl
  rw [show fmtTag ++ u32le 16 ++ u16le 1 ++ u16le c ++ u32le freq ++ u32le br ++ u16le ba ++ u16le b ++ rest
      = fmtTag ++ (u32le 16 ++ (u16le 1 ++ (u16le c ++ (u32le freq ++ ((u32le br ++ u16le ba) ++ (u16le b ++ rest))))))
      from by simp [List.append_assoc]] at h
  obtain ⟨e0, h0⟩ := fread_at hlen h
  obtain ⟨e1, h1⟩ := read32_u32le_at (by norm_num) h0
  obtain ⟨e2, h2⟩ := read16_u16le_at (by norm_num) h1
  have hc' : c < 32768 := by rcases hc with h | h <;> omega
  obtain ⟨e3, h3⟩ := read16_u16le_at hc' h2
  obtain ⟨e4, h4⟩ := read32_u32le_at (by omega) h3
  have hsk : (u32le br ++ u16le ba).length = 6 := by simp [u32le, u16le]
  obtain ⟨e5, h5⟩ := fseekCur_at hsk (show ((6 : Nat) : Int) = (6 : Int) from by norm_num) h4
  have hb' : b < 32768 := by rcases hb with h | h <;> omega
  obtain ⟨e6, h6⟩ := read16_u16le_at hb' h5
  constructor
  · unfold chunkStep
    rw [e0]
    dsimp only
    rw [if_neg (by decide), if_pos rfl, e1]
    dsimp only [Option.getD]
    rw [if_neg (by decide), e2]
    dsimp only [Option.getD]
    rw [if_neg (by decide), e3]
    dsimp only [Option.getD]
    rw [if_neg (by rcases hc with h | h <;> simp [h]), e4]
    dsimp only [Option.getD]
    rw [e5, e6]
    dsimp only [Option.getD]
    rw [if_neg (by rcases hb with h | h <;> simp [h])]
    rw [if_neg (by norm_num)]
  · obtain ⟨hd6, hp6⟩ := h6
    refine ⟨?_, ?_⟩
    · simpa [List.append_assoc] using hd6
    · dsimp only at hp6
      simp only [List.length_append] at hp6 ⊢
      simp only [u32le, u16le, fmtTag] at hp6 ⊢
      simp at hp6 ⊢
      omega

/-- A data chunk tag at the cursor: `chunkStep` stops successfully just
after the 4 tag bytes. -/
theorem chunkStep_data {w : WAVFILE} {f : File} {pre rest : List Nat}
    (h : FileAt f pre (dataTag ++ rest)) :
    chunkStep w f = .done w ⟨f.data, f.pos + 4⟩ ∧
    FileAt ⟨f.data, f.pos + 4⟩ (pre ++ dataTag) rest := by
  have hlen : dataTag.length = 4 := rfl
  obtain ⟨e, h2⟩ := fread_at hlen h
  refine ⟨?_, h2⟩
  unfold chunkStep
  rw [e]
  dsimp only
  rw [if_neg (by decide), if_neg (by decide), if_pos rfl]

/-- An unknown chunk (neither fmt nor data) at the cursor: `chunkStep`
skips its declared payload and continues scanning after it. -/
theorem chunkStep_skip {w : WAVFILE} {f : File} {pre rest tag payload : List Nat}
    (ht4 : tag.length = 4) (htf : tag ≠ fmtTag) (htd : tag ≠ dataTag)
    (hp : payload.length < 2147483648)
    (h : FileAt f pre (tag ++ u32le payload.length ++ payload ++ rest)) :
    chunkStep w f = .next w ⟨f.data, f.pos + (8 + payload.length)⟩ ∧
    FileAt ⟨f.data, f.pos + (8 + payload.length)⟩
      (pre ++ (tag ++ u32le payload.length ++ payload)) rest := by
  rw [show tag ++ u32le payload.length ++ payload ++ rest
      = tag ++ (u32le payload.length ++ (payload ++ rest))
      from by simp [List.append_assoc]] at h
  obtain ⟨e0, h0⟩ := fread_at ht4 h
  obtain ⟨e1, h1⟩ := read32_u32le_at hp h0
  obtain ⟨e2, h2⟩ := fseekCur_at rfl rfl h1
  constructor
  · unfold chunkStep
    rw [e0]
    dsimp only
    rw [if_neg (by decide), if_neg htf, if_neg htd, e1]
    dsimp only [Option.getD]
    rw [e2]
    simp only [ChunkStep.next.injEq, File.mk.injEq, eq_self_iff_true, true_and, and_true]
    all_goals omega
  · obtain ⟨hd2, hp2⟩ := h2
    refine ⟨?_, ?_⟩
    · simpa [List.append_assoc] using hd2
    · dsimp only at hp2
      simp only [List.length_append, u32le] at hp2 ⊢
      simp at hp2 ⊢
      omega

/-- Unfolding lemma: a continuing chunk-scan iteration consumes one unit
of fuel. -/
theorem parseChunks_next {fuel : Nat} {w w1 : WAVFILE} {f f1 : File}
    (hstep : chunkStep w f = .next w1 f1) :
    parseChunks (fuel + 1) w f = parseChunks fuel w1 f1 := by
  have hunf : parseChunks (fuel + 1) w f = match chunkStep w f with
      | .fail => none
      | .done w f => some (w, f)
      | .next w f => parseChunks fuel w f := rfl
  rw [hunf, hstep]

/-- Unfolding lemma: the chunk scan stops when the iteration finds the
data chunk. -/
theorem parseChunks_done {fuel : Nat} {w w1 : WAVFILE} {f f1 : File}
    (hstep : chunkStep w f = .done w1 f1) :
    parseChunks (fuel + 1) w f = some (w1, f1) := by
  have hunf : parseChunks (fuel + 1) w f = match chunkStep w f with
      | .fail => none
      | .done w f => some (w, f)
      | .next w f => parseChunks fuel w f := rfl
  rw [hunf, hstep]

/-! ### Parsing a well-formed header -/

/-- Opening a well-formed single-fmt-chunk container yields a handle
carrying the declared rate, depth and channel count, with the frame count
derived from the declared data byte count by the stereo round-up-halving
followed by the 16-bit halving, and the data offset right after the
44-byte header. -/
theorem wav_open_wavBytes (junk : Int) (szf c b freq br ba ds : Nat) (body : List Nat)
    (hc : c = 1 ∨ c = 2) (hb : b = 8 ∨ b = 16) (hf : freq < 2147483648)
    (hds : ds < 2147483648) :
    wav_open junk (wavBytes szf c freq br ba b ds body) =
      some (⟨44, (freq : Int), (b : Int), (c : Int),
        (if b = 16 then (if c = 2 then ((ds : Int) + 1).tdiv 2 else (ds : Int)).tdiv 2
         else (if c = 2 then ((ds : Int) + 1).tdiv 2 else (ds : Int))), 0, 0⟩,
        ⟨wavBytes szf c freq br ba b ds body, 44⟩) := by
  have h0 : FileAt (⟨wavBytes szf c freq br ba b ds body, 0⟩ : File) []
      ((riffTag ++ u32le szf ++ waveTag) ++
       (fmtTag ++ u32le 16 ++ u16le 1 ++ u16le c ++ u32le freq ++ u32le br ++ u16le ba ++ u16le b ++
        (dataTag ++ (u32le ds ++ body)))) :=
    ⟨by simp [wavBytes, List.append_assoc], rfl⟩
  have hhdr : (riffTag ++ u32le szf ++ waveTag).length = 12 := by simp [riffTag, u32le, waveTag]
  obtain ⟨eH, hH⟩ := fread_at hhdr h0
  dsimp only at eH hH
  obtain ⟨eF, hF⟩ := chunkStep_fmt hc hb hf hH
  dsimp only at eF hF
  obtain ⟨eD, hD⟩ := chunkStep_data hF
  dsimp only at eD hD
  obtain ⟨eS, hS⟩ := read32_u32le_at hds hD
  dsimp only at eS hS
  have hfuel : (wavBytes szf c freq br ba b ds body).length + 2
      = ((wavBytes szf c freq br ba b ds body).length + 1) + 1 := rfl
  unfold wav_open
  dsimp only
  rw [eH]
  dsimp only
  rw [if_neg (by simp [riffTag, u32le, waveTag])]
  rw [if_neg (by simp [riffTag, u32le, waveTag])]
  rw [hfuel, parseChunks_next eF, parseChunks_done eD]
  dsimp only
  rw [eS]
  dsimp only [Option.getD]
  rcases hc with rfl | rfl <;> rcases hb with rfl | rfl <;>
    norm_num

/-! ### The bit-depth / channel-count invariant -/

/-- A continuing chunk-scan iteration preserves validity of the bit depth
and channel count: the fmt branch re-validates any value it stores, and
the skip branch leaves the handle untouched. -/
theorem chunkStep_next_inv {w w1 : WAVFILE} {f f1 : File}
    (hstep : chunkStep w f = .next w1 f1)
    (hbits : w.bits = 8 ∨ w.bits = 16) (hch : w.channels = 1 ∨ w.channels = 2) :
    (w1.bits = 8 ∨ w1.bits = 16) ∧ (w1.channels = 1 ∨ w1.channels = 2) := by
  unfold chunkStep at hstep
  dsimp only at hstep
  split at hstep
  · exact ChunkStep.noConfusion hstep
  · split at hstep
    · split at hstep
      · exact ChunkStep.noConfusion hstep
      · split at hstep
        · exact ChunkStep.noConfusion hstep
        · split at hstep
          · exact ChunkStep.noConfusion hstep
          · rename_i hchGuard
            split at hstep
            · exact ChunkStep.noConfusion hstep
            · rename_i hbitsGuard
              injection hstep with hw hf
              subst hw
              dsimp only
              exact ⟨by omega, by omega⟩
    · split at hstep
      · exact ChunkStep.noConfusion hstep
      · injection hstep with hw hf
        subst hw
        exact ⟨hbits, hch⟩

/-- The chunk-scan iteration that stops at the data chunk returns the
handle unchanged. -/
theorem chunkStep_done_eq {w w1 : WAVFILE} {f f1 : File}
    (hstep : chunkStep w f = .done w1 f1) : w1 = w := by
  unfold chunkStep at hstep
  dsimp only at hstep
  split at hstep
  · exact ChunkStep.noConfusion hstep
  · split at hstep
    · split at hstep
      · exact ChunkStep.noConfusion hstep
      · split at hstep
        · exact ChunkStep.noConfusion hstep
        · split at hstep
          · exact ChunkStep.noConfusion hstep
          · split at hstep
            · exact ChunkStep.noConfusion hstep
            · exact ChunkStep.noConfusion hstep
    · split at hstep
      · injection hstep with hw hf
        exact hw.symm
      · exact ChunkStep.noConfusion hstep

/-- The whole chunk scan preserves validity of the bit depth and channel
count fields. -/
theorem parseChunks_inv : ∀ (fuel : Nat) (w : WAVFILE) (f : File) (w1 : WAVFILE) (f1 : File),
    (w.bits = 8 ∨ w.bits = 16) → (w.channels = 1 ∨ w.channels = 2) →
    parseChunks fuel w f = some (w1, f1) →
    (w1.bits = 8 ∨ w1.bits = 16) ∧ (w1.channels = 1 ∨ w1.channels = 2) := by
  intro fuel
  induction fuel with
  | zero =>
    intro w f w1 f1 hb hc h
    have hnone : (none : Option (WAVFILE × File)) = some (w1, f1) := h
    exact Option.noConfusion hnone
  | succ n ih =>
    intro w f w1 f1 hb hc h
    have hunf : parseChunks (n + 1) w f = match chunkStep w f with
        | .fail => none
        | .done w f => some (w, f)
        | .next w f => parseChunks n w f := rfl
    rw [hunf] at h
    cases hcs : chunkStep w f with
    | fail => rw [hcs] at h; exact Option.noConfusion h
    | done w2 f2 =>
      rw [hcs] at h
      simp only [Option.some.injEq, Prod.mk.injEq] at h
      obtain ⟨hw, _⟩ := h
      subst hw
      rw [chunkStep_done_eq hcs]
      exact ⟨hb, hc⟩
    | next w2 f2 =>
      rw [hcs] at h
      obtain ⟨hb2, hc2⟩ := chunkStep_next_inv hcs hb hc
      exact ih w2 f2 w1 f1 hb2 hc2 h

/-- Every handle a successful `wav_open` returns carries a valid bit
depth and channel count: the defaults are valid and every fmt chunk is
validated. -/
theorem wav_open_inv (junk : Int) (bytes : List Nat) (w : WAVFILE) (f : File)
    (h : wav_open junk bytes = some (w, f)) :
    (w.bits = 8 ∨ w.bits = 16) ∧ (w.channels = 1 ∨ w.channels = 2) := by
  unfold wav_open at h
  dsimp only at h
  split at h
  · exact Option.noConfusion h
  · split at h
    · exact Option.noConfusion h
    · split at h
      · exact Option.noConfusion h
      · rename_i p hp
        obtain ⟨hb1, hc1⟩ := parseChunks_inv _ _ _ p.1 p.2 (Or.inl rfl) (Or.inl rfl)
          (by rw [hp])
        simp only [Option.some.injEq, Prod.mk.injEq] at h
        obtain ⟨hw, _⟩ := h
        subst hw
        dsimp only
        constructor
        · split <;> split <;> dsimp only <;> omega
        · split <;> split <;> dsimp only <;> omega

/-! ### Scanning past unknown chunks -/

theorem chunksBytes_nil : chunksBytes [] = [] := rfl

theorem chunksBytes_cons (t p : List Nat) (cs : List (List Nat × List Nat)) :
    chunksBytes ((t, p) :: cs) = t ++ u32le p.length ++ p ++ chunksBytes cs := rfl

theorem length_le_chunksBytes (cs : List (List Nat × List Nat)) :
    cs.length ≤ (chunksBytes cs).length := by
  induction cs with
  | nil => simp [chunksBytes]
  | cons c cs ih =>
    obtain ⟨t, p⟩ := c
    rw [chunksBytes_cons]
    simp only [List.length_cons, List.length_append, u32le, List.length_cons, List.length_nil]
    omega

/-- Scanning a run of non-fmt, non-data chunks followed by the data tag
skips every chunk using its declared length and stops right after the
data tag, leaving the handle untouched. -/
theorem parseChunks_skipAll :
    ∀ (cs : List (List Nat × List Nat)) (fuel : Nat) (w : WAVFILE) (f : File)
      (pre rest : List Nat),
    (∀ p ∈ cs, p.1.length = 4 ∧ p.1 ≠ fmtTag ∧ p.1 ≠ dataTag ∧ p.2.length < 2147483648) →
    cs.length < fuel →
    FileAt f pre (chunksBytes cs ++ (dataTag ++ rest)) →
    parseChunks fuel w f = some (w, ⟨f.data, f.pos + ((chunksBytes cs).length + 4)⟩) ∧
    FileAt ⟨f.data, f.pos + ((chunksBytes cs).length + 4)⟩
      (pre ++ (chunksBytes cs ++ dataTag)) rest := by
  intro cs
  induction cs with
  | nil =>
    intro fuel w f pre rest _ hfuel h
    rw [chunksBytes_nil] at h ⊢
    rw [List.nil_append] at h
    obtain ⟨m, rfl⟩ : ∃ m, fuel = m + 1 := ⟨fuel - 1, by omega⟩
    obtain ⟨eD, hD⟩ := chunkStep_data h
    refine ⟨?_, ?_⟩
    · rw [parseChunks_done eD]
      simp
    · simpa using hD
  | cons c cs ih =>
    intro fuel w f pre rest hcs hfuel h
    obtain ⟨t, p⟩ := c
    obtain ⟨ht4, htf, htd, hplen⟩ := hcs (t, p) (by simp)
    rw [chunksBytes_cons] at h ⊢
    rw [show t ++ u32le p.length ++ p ++ chunksBytes cs ++ (dataTag ++ rest)
        = t ++ u32le p.length ++ p ++ (chunksBytes cs ++ (dataTag ++ rest))
        from by simp [List.append_assoc]] at h
    obtain ⟨m, rfl⟩ : ∃ m, fuel = m + 1 := ⟨fuel - 1, by omega⟩
    obtain ⟨eN, hN⟩ := chunkStep_skip ht4 htf htd hplen h
    have hm : cs.length < m := by
      simp only [List.length_cons] at hfuel
      omega
    obtain ⟨eP, hP⟩ := ih m w _ _ rest (fun q hq => hcs q (by simp [hq])) hm hN
    refine ⟨?_, ?_⟩
    · rw [parseChunks_next eN, eP]
      dsimp only at ht4 ⊢
      simp [u32le, List.length_append]
      omega
    · obtain ⟨hd, hp⟩ := hP
      dsimp only at hd hp ht4
      refine ⟨?_, ?_⟩
      · rw [hd]
        simp [List.append_assoc]
      · simp only [List.length_append, u32le, List.length_cons, List.length_nil] at hp ⊢
        omega

/-! ### Claim theorems -/

/-- C6: for every stream handle and time `t >= loop_end`, seek returns
false and leaves the file (read cursor) exactly unchanged. -/
theorem wav_stream_seek_past_loop_end (w : WAVFILE) (f : File) (t : ℚ)
    (h : w.loop_end ≤ t) : wav_stream_seek w f t = (false, f) := by
  unfold wav_stream_seek
  rw [if_pos h]

/-- Witness for C6 at a concrete handle, cursor position and time. -/
theorem wav_stream_seek_past_loop_end_witness :
    wav_stream_seek c8w ⟨[1, 2, 3], 1⟩ 5 = (false, ⟨[1, 2, 3], 1⟩) :=
  wav_stream_seek_past_loop_end c8w ⟨[1, 2, 3], 1⟩ 5 (by norm_num [c8w])

/-- C2 counterexample: seeking the 16-bit stereo handle `seekW` (frame
size 4) to time 1/4 at rate 1 gives raw byte offset 1; the code adds
`1 % 4 = 1` and seeks to byte 2, which is not a frame boundary — the
claimed round-up-to-the-next-frame-boundary would land at byte 4. -/
theorem wav_stream_seek_not_frame_aligned :
    wav_stream_seek seekW seekF (1 / 4) = (true, ⟨[], 2⟩) ∧ ¬((4 : Nat) ∣ 2) := by
  constructor
  · unfold wav_stream_seek seekW seekF
    dsimp only
    rw [if_neg (by norm_num)]
    rw [show (16 : Int).tdiv 8 = 2 from by decide]
    rw [show ((1 : ℚ) / 4 * ((1 * 2 * 2 : Int) : ℚ)) = 1 from by norm_num]
    rw [Int.floor_one]
    decide
  · decide

/-- C2 amended: for `t < loop_end` the seek computes the raw byte offset
`o = floor(t * rate * bytesPerFrame)` and adds to it `o % bytesPerFrame`
— the remainder itself, not the distance to the next frame boundary —
then seeks the underlying stream to `dataOffset + o + o % bytesPerFrame`
and reports success. -/
theorem wav_stream_seek_adds_remainder (w : WAVFILE) (f : File) (t : ℚ)
    (h : t < w.loop_end) :
    wav_stream_seek w f t =
      (true, ⟨f.data,
        ((w.dpos : Int) +
          (((⌊t * ((w.freq * w.bits.tdiv 8 * w.channels : Int) : ℚ)⌋).toNat +
            (⌊t * ((w.freq * w.bits.tdiv 8 * w.channels : Int) : ℚ)⌋).toNat %
              (w.bits.tdiv 8 * w.channels).toNat : Nat) : Int)).toNat⟩) := by
  unfold wav_stream_seek
  rw [if_neg (not_le.mpr h)]
  unfold fseekSet
  rw [if_neg (by omega)]

/-- Witness for the amended C2 at the concrete counterexample input. -/
theorem wav_stream_seek_adds_remainder_witness :
    wav_stream_seek seekW seekF (1 / 4) = (true, ⟨[], 2⟩) := by
  refine (wav_stream_seek_adds_remainder seekW seekF (1 / 4) (by norm_num [seekW])).trans ?_
  unfold seekW seekF
  dsimp only
  rw [show (16 : Int).tdiv 8 = 2 from by decide]
  rw [show ((1 : ℚ) / 4 * ((1 * 2 * 2 : Int) : ℚ)) = 1 from by norm_num]
  rw [Int.floor_one]
  decide

/-- C3: the frame count is derived from the declared data byte count by
the stereo round-up-then-halve `(count + 1) / 2` followed by the 16-bit
halving, using C truncating division, in each of the four layout
combinations. -/
theorem wav_open_frame_count_derivation (junk : Int) (szf freq br ba ds : Nat)
    (body : List Nat) (hf : freq < 2147483648) (hds : ds < 2147483648) :
    (wav_open junk (wavBytes szf 2 freq br ba 16 ds body)).map (fun q => q.1.samples)
      = some ((((ds : Int) + 1).tdiv 2).tdiv 2) ∧
    (wav_open junk (wavBytes szf 1 freq br ba 16 ds body)).map (fun q => q.1.samples)
      = some ((ds : Int).tdiv 2) ∧
    (wav_open junk (wavBytes szf 2 freq br ba 8 ds body)).map (fun q => q.1.samples)
      = some (((ds : Int) + 1).tdiv 2) ∧
    (wav_open junk (wavBytes szf 1 freq br ba 8 ds body)).map (fun q => q.1.samples)
      = some ((ds : Int)) := by
  refine ⟨?_, ?_, ?_, ?_⟩ <;>
    rw [wav_open_wavBytes junk szf _ _ freq br ba ds body (by norm_num) (by norm_num) hf hds] <;>
    norm_num

/-- Witness for C3: the concrete malformed stereo 16-bit container
declaring byte length 9 yields frame count ((9+1)/2)/2 = 2. -/
theorem wav_open_frame_count_derivation_witness :
    (wav_open 0 (wavBytes 0 2 44100 176400 4 16 9 [])).map (fun q => q.1.samples) = some 2 := by
  rw [(wav_open_frame_count_derivation 0 0 44100 176400 4 9 []
    (by norm_num) (by norm_num)).1]
  decide

/-- C5: a stream that hits end-of-stream inside the 4-byte count field
right after the "data" tag is NOT rejected: `wav_open` ignores the
failing `read32` and returns a handle whose frame count is whatever
uninitialized garbage (`junk`) the allocation left there. -/
theorem wav_open_truncated_data_count_returns_handle :
    wav_open 123 truncAfterDataTag
      = some (⟨16, 22050, 8, 1, 123, 0, 0⟩, ⟨truncAfterDataTag, 16⟩) ∧
    wav_open 7 truncAfterDataTag
      = some (⟨16, 22050, 8, 1, 7, 0, 0⟩, ⟨truncAfterDataTag, 16⟩) := by
  constructor <;> decide

/-- C8: every handle a successful open returns has bit depth 8 or 16 and
channel count 1 or 2; the loop-setting operation (the only operation that
rewrites the handle) preserves both fields; and a fmt chunk declaring 3
channels, or bit depth 12, makes the open fail. -/
theorem wav_open_format_invariant :
    (∀ (junk : Int) (bytes : List Nat) (w : WAVFILE) (f : File),
      wav_open junk bytes = some (w, f) →
      (w.bits = 8 ∨ w.bits = 16) ∧ (w.channels = 1 ∨ w.channels = 2)) ∧
    (∀ (w : WAVFILE) (s e : ℚ),
      (wav_stream_set_loop w s e).1.bits = w.bits ∧
      (wav_stream_set_loop w s e).1.channels = w.channels) ∧
    wav_open 0 (wavBytes 0 3 22050 0 0 8 0 []) = none ∧
    wav_open 0 (wavBytes 0 1 22050 0 0 12 0 []) = none := by
  exact ⟨wav_open_inv, fun w s e => ⟨rfl, rfl⟩, by decide, by decide⟩

/-- Witness for C8: the invariant instantiated at a concrete minimal
valid container. -/
theorem wav_open_format_invariant_witness :
    (c8w.bits = 8 ∨ c8w.bits = 16) ∧ (c8w.channels = 1 ∨ c8w.channels = 2) :=
  wav_open_format_invariant.1 0 (wavBytes 0 1 22050 0 0 8 0 []) c8w
    ⟨wavBytes 0 1 22050 0 0 8 0 [], 44⟩ (by decide)

/-- C9: a container that reaches its data chunk through any run of
non-fmt chunks, never declaring a fmt chunk, opens successfully with the
default parameters: 22050 Hz, 8-bit, mono. -/
theorem wav_open_defaults_without_fmt (junk : Int) (szf ds : Nat)
    (cs : List (List Nat × List Nat)) (body : List Nat)
    (hcs : ∀ p ∈ cs, p.1.length = 4 ∧ p.1 ≠ fmtTag ∧ p.1 ≠ dataTag ∧ p.2.length < 2147483648)
    (hds : ds < 2147483648) :
    wav_open junk (noFmtBytes szf cs ds body) =
      some (⟨20 + (chunksBytes cs).length, 22050, 8, 1, (ds : Int), 0, 0⟩,
        ⟨noFmtBytes szf cs ds body, 20 + (chunksBytes cs).length⟩) := by
  have h0 : FileAt (⟨noFmtBytes szf cs ds body, 0⟩ : File) []
      ((riffTag ++ u32le szf ++ waveTag) ++
        (chunksBytes cs ++ (dataTag ++ (u32le ds ++ body)))) :=
    ⟨by simp [noFmtBytes, List.append_assoc], rfl⟩
  have hhdr : (riffTag ++ u32le szf ++ waveTag).length = 12 := by simp [riffTag, u32le, waveTag]
  obtain ⟨eH, hH⟩ := fread_at hhdr h0
  dsimp only at eH hH
  have hlen : (chunksBytes cs).length ≤ (noFmtBytes szf cs ds body).length := by
    simp only [noFmtBytes, List.length_append]
    omega
  have hfuel : cs.length < (noFmtBytes szf cs ds body).length + 2 := by
    have hc := length_le_chunksBytes cs
    omega
  obtain ⟨eP, hP⟩ := parseChunks_skipAll cs ((noFmtBytes szf cs ds body).length + 2)
    ⟨0, 22050, 8, 1, junk, 0, 0⟩ _ _ (u32le ds ++ body) hcs hfuel hH
  dsimp only at eP hP
  obtain ⟨eS, hS⟩ := read32_u32le_at hds hP
  dsimp only at eS hS
  unfold wav_open
  dsimp only
  rw [eH]
  dsimp only
  rw [if_neg (by simp [riffTag, u32le, waveTag]), if_neg (by simp [riffTag, u32le, waveTag])]
  rw [eP]
  dsimp only
  rw [eS]
  dsimp only [Option.getD]
  rw [if_neg (by norm_num)]
  rw [if_neg (by norm_num)]
  simp only [Option.some.injEq, Prod.mk.injEq, WAVFILE.mk.injEq, File.mk.injEq,
    eq_self_iff_true, and_true, true_and]
  omega

/-- Witness for C9: the chunkless instance. -/
theorem wav_open_defaults_without_fmt_witness :
    wav_open 0 (noFmtBytes 0 [] 0 []) = some (⟨20, 22050, 8, 1, 0, 0, 0⟩, ⟨noFmtBytes 0 [] 0 [], 20⟩) := by
  refine (wav_open_defaults_without_fmt 0 0 0 [] [] (by simp) (by norm_num)).trans ?_
  decide

/-- C4 (code bug witness): encoding the stereo signed-8 buffer `s8buf`
(1 frame, 2 sample values, header-declared data size 2) writes only
`samples` = 1 data byte — the biased first sample 10 + 0x80 = 138 — so
the output is 45 bytes (44-byte header + 1), not the 46 the claim (and
the header the encoder itself writes) requires. -/
theorem al_save_wav_stream_int8_stereo_underwrites :
    (al_save_wav_stream s8buf).map (List.drop 44) = some [138] ∧
    (al_save_wav_stream s8buf).map List.length = some 45 ∧
    s8buf.samples * s8buf.channels = 2 := by
  exact ⟨by decide, by decide, rfl⟩

/-- C10: whenever the one-shot loader returns a sample, every byte of its
buffer at or past the end of the decoded data is zero, because the buffer
is zero-filled before decoding. -/
theorem al_load_wav_zero_fill (junk : Int) (bytes : List Nat) (w : WAVFILE) (f : File)
    (spl : LoadedSample)
    (hopen : wav_open junk bytes = some (w, f))
    (hload : al_load_wav junk bytes = some spl) :
    ∀ i : Nat, (storeBytes w.bits (wav_read w f w.samples.toNat).1).length ≤ i →
      ∀ hi : i < spl.buffer.length, spl.buffer.get ⟨i, hi⟩ = 0 := by
  unfold al_load_wav at hload
  rw [hopen] at hload
  dsimp only at hload
  split at hload
  · exact Option.noConfusion hload
  · simp only [Option.some.injEq] at hload
    subst hload
    dsimp only
    intro i hle hi
    rw [List.get_eq_getElem, List.getElem_append_right hle]
    simp only [List.drop_replicate]
    exact List.getElem_replicate 0 _

/-- Witness for C10: a mono 8-bit container declaring 4 data bytes but
holding only 2; the loaded buffer is [7, 9, 0, 0] and index 2 (the first
byte past the decoded data) reads 0. -/
theorem al_load_wav_zero_fill_witness :
    (⟨[7, 9, 0, 0], 4, 22050, 8, 1⟩ : LoadedSample).buffer.get ⟨2, by decide⟩ = 0 :=
  al_load_wav_zero_fill 0 (wavBytes 0 1 22050 22050 1 8 4 [7, 9]) ⟨44, 22050, 8, 1, 4, 0, 0⟩
    ⟨wavBytes 0 1 22050 22050 1 8 4 [7, 9], 44⟩ ⟨[7, 9, 0, 0], 4, 22050, 8, 1⟩
    (by decide) (by decide) 2 (by decide) (by decide)

/-! ### Short reads -/

theorem fgetc_eq_some {f : File} (h : f.pos < f.data.length) :
    fgetc f = (some f.data[f.pos], ⟨f.data, f.pos + 1⟩) := by
  unfold fgetc
  rw [List.getElem?_eq_getElem h]

theorem fgetc_eq_none {f : File} (h : f.data.length ≤ f.pos) : fgetc f = (none, f) := by
  unfold fgetc
  rw [List.getElem?_eq_none h]

/-- A 16-bit read that succeeds consumes exactly two bytes. -/
theorem read16_two {f : File} (h : f.pos + 1 < f.data.length) :
    read16 f = (some (toS16 (f.data[f.pos] + 256 * f.data[f.pos + 1])),
      ⟨f.data, f.pos + 2⟩) := by
  have h0 : f.pos < f.data.length := by omega
  unfold read16
  rw [fgetc_eq_some h0]
  dsimp only
  rw [fgetc_eq_some (show (⟨f.data, f.pos + 1⟩ : File).pos < (⟨f.data, f.pos + 1⟩ : File).data.length from h)]
  dsimp only [Option.getD]

/-- A 16-bit read that hits end-of-stream reports failure and leaves the
cursor at or past the end of the data, never before it. -/
theorem read16_eof {f : File} (h : f.data.length ≤ f.pos + 1) :
    (read16 f).1 = none ∧ (read16 f).2.data = f.data ∧
    f.data.length ≤ (read16 f).2.pos := by
  by_cases h0 : f.pos < f.data.length
  · unfold read16
    rw [fgetc_eq_some h0]
    dsimp only
    rw [fgetc_eq_none (by dsimp only; omega)]
    exact ⟨rfl, rfl, by dsimp only; omega⟩
  · unfold read16
    rw [fgetc_eq_none (by omega)]
    dsimp only
    rw [fgetc_eq_none (by omega)]
    exact ⟨rfl, rfl, by dsimp only; omega⟩

/-- Requesting more 16-bit values than the stream holds reads exactly
`available / 2` values (every whole little-endian pair before
end-of-stream) and leaves the cursor at the very end of the data. -/
theorem readS16Loop_exhaust : ∀ (n : Nat) (f : File),
    (f.data.length - f.pos) / 2 < n →
    (readS16Loop n f).1.length = (f.data.length - f.pos) / 2 ∧
    (readS16Loop n f).2.data = f.data ∧
    (readS16Loop n f).2.data.length ≤ (readS16Loop n f).2.pos := by
  intro n
  induction n with
  | zero =>
    intro f h
    exact absurd h (by omega)
  | succ m ih =>
    intro f h
    have hunf : readS16Loop (m + 1) f =
        (let t := read16 f
         match t.1 with
         | some v =>
           let res := readS16Loop m t.2
           (v :: res.1, res.2)
         | none => ([], t.2)) := rfl
    by_cases h2 : f.pos + 1 < f.data.length
    · have harg : (((⟨f.data, f.pos + 2⟩ : File)).data.length -
          ((⟨f.data, f.pos + 2⟩ : File)).pos) / 2 < m := by
        dsimp only
        omega
      obtain ⟨ihlen, ihdata, ihpos⟩ := ih ⟨f.data, f.pos + 2⟩ harg
      rw [hunf, read16_two h2]
      dsimp only at ihlen ihdata ihpos ⊢
      refine ⟨?_, ihdata, ihpos⟩
      rw [List.length_cons, ihlen]
      omega
    · obtain ⟨h1, hdata, hpos⟩ := @read16_eof f (by omega)
      rw [hunf]
      dsimp only
      rw [h1]
      dsimp only
      refine ⟨by simp only [List.length_nil]; omega, hdata, ?_⟩
      rw [hdata]
      exact hpos

/-- C7: a decode request for more frames than remain returns exactly the
remaining whole-frame count, and any immediately following decode call
returns 0 frames. -/
theorem wav_read_short_read (w : WAVFILE) (f : File) (s : Nat)
    (hb : w.bits = 8 ∨ w.bits = 16) (hc : w.channels = 1 ∨ w.channels = 2)
    (hs : remainingFrames w f < s) :
    (wav_read w f s).2.1 = remainingFrames w f ∧
    ∀ s2 : Nat, (wav_read w ((wav_read w f s).2.2) s2).2.1 = 0 := by
  unfold remainingFrames at hs
  unfold wav_read remainingFrames fread
  rcases hb with hb | hb
  · rw [hb] at hs ⊢
    simp only [if_pos (show ((8 : Int) = 8) from rfl), eq_self_iff_true, ite_true] at hs ⊢
    rcases hc with hch | hch <;> rw [hch] at hs ⊢ <;>
      simp only [show ((1 : Int)).toNat = 1 from rfl, show ((2 : Int)).toNat = 2 from rfl,
        one_mul, Nat.div_one] at hs ⊢ <;>
      exact ⟨by omega, fun s2 => by omega⟩
  · rw [hb] at hs ⊢
    simp only [if_neg (show ¬((16 : Int) = 8) from by decide)] at hs ⊢
    rcases hc with hch | hch <;> rw [hch] at hs ⊢ <;>
      simp only [show ((1 : Int)).toNat = 1 from rfl, show ((2 : Int)).toNat = 2 from rfl,
        one_mul, Nat.div_one] at hs ⊢
    · obtain ⟨hlen, hdata, hpos⟩ := readS16Loop_exhaust s f (by omega)
      have hle : f.data.length ≤ (readS16Loop s f).2.pos := hdata ▸ hpos
      refine ⟨by rw [hlen], fun s2 => ?_⟩
      cases s2 with
      | zero => rfl
      | succ m =>
        obtain ⟨hlen2, hdata2, hpos2⟩ := readS16Loop_exhaust (m + 1) ((readS16Loop s f).2)
          (by rw [hdata]; omega)
        rw [hlen2, hdata]
        omega
    · obtain ⟨hlen, hdata, hpos⟩ := readS16Loop_exhaust (2 * s) f (by omega)
      have hle : f.data.length ≤ (readS16Loop (2 * s) f).2.pos := hdata ▸ hpos
      refine ⟨by rw [hlen], fun s2 => ?_⟩
      cases s2 with
      | zero => simp [readS16Loop]
      | succ m =>
        obtain ⟨hlen2, hdata2, hpos2⟩ := readS16Loop_exhaust (2 * (m + 1))
          ((readS16Loop (2 * s) f).2) (by rw [hdata]; omega)
        rw [hlen2, hdata]
        omega

/-- Reading back one serialized signed-16 sample value recovers it. -/
theorem read16_s16le_at {f : File} {pre rest : List Nat} {v : Int}
    (hv : -32768 ≤ v ∧ v < 32768) (h : FileAt f pre (s16le v ++ rest)) :
    read16 f = (some v, ⟨f.data, f.pos + 2⟩) ∧
    FileAt ⟨f.data, f.pos + 2⟩ (pre ++ s16le v) rest := by
  have h2 : FileAt f pre
      ((v % 65536).toNat % 256 :: ((v % 65536).toNat / 256 % 256) :: rest) := h
  obtain ⟨e, h3⟩ := read16_at h2
  have hval : toS16 ((v % 65536).toNat % 256 + 256 * ((v % 65536).toNat / 256 % 256))
      = v := by
    have hlt : (v % 65536).toNat < 65536 := by omega
    have hrec : (v % 65536).toNat % 256 + 256 * ((v % 65536).toNat / 256 % 256)
        = (v % 65536).toNat := by omega
    unfold toS16
    rw [hrec, Nat.mod_eq_of_lt hlt]
    split
    · omega
    · omega
  exact ⟨by rw [e, hval], h3⟩

/-- The 16-bit read loop over a serialized value list recovers exactly
that list. -/
theorem readS16Loop_serial :
    ∀ (vs : List Int) (f : File) (pre rest : List Nat),
    (∀ v ∈ vs, -32768 ≤ v ∧ v < 32768) →
    FileAt f pre (vs.flatMap s16le ++ rest) →
    readS16Loop vs.length f = (vs, ⟨f.data, f.pos + 2 * vs.length⟩) := by
  intro vs
  induction vs with
  | nil => intro f pre rest _ h; rfl
  | cons v vs ih =>
    intro f pre rest hrange h
    rw [List.flatMap_cons] at h
    rw [show s16le v ++ vs.flatMap s16le ++ rest = s16le v ++ (vs.flatMap s16le ++ rest)
      from by simp [List.append_assoc]] at h
    obtain ⟨e, h2⟩ := read16_s16le_at (hrange v (by simp)) h
    have hunf : readS16Loop (v :: vs).length f =
        (let t := read16 f
         match t.1 with
         | some x =>
           let res := readS16Loop vs.length t.2
           (x :: res.1, res.2)
         | none => ([], t.2)) := rfl
    rw [hunf, e]
    dsimp only
    rw [ih ⟨f.data, f.pos + 2⟩ (pre ++ s16le v) rest (fun x hx => hrange x (by simp [hx])) h2]
    dsimp only
    simp only [Prod.mk.injEq, File.mk.injEq, List.length_cons, eq_self_iff_true,
      true_and, and_true]
    omega

/-- C1: encoding a signed-16 sample buffer with 1 or 2 channels and
parsing the produced container back yields exactly the original sample
values, sample rate and channel count (and frame count). -/
theorem wav_int16_roundtrip (junk : Int) (spl : SampleBuf)
    (hd : spl.depth = .int16)
    (hc : spl.channels = 1 ∨ spl.channels = 2)
    (hlen : spl.data.length = spl.samples * spl.channels)
    (hrange : ∀ v ∈ spl.data, -32768 ≤ v ∧ v < 32768)
    (hf : spl.frequency < 2147483648)
    (hds : spl.samples * spl.channels * 2 < 2147483648) :
    (al_save_wav_stream spl).bind (decodeAll junk) =
      some (spl.data, (spl.frequency : Int), (spl.channels : Int), (spl.samples : Int)) := by
  obtain ⟨dep, c, fr, smp, data⟩ := spl
  dsimp only at hd hc hlen hrange hf hds ⊢
  subst hd
  have henc : al_save_wav_stream ⟨.int16, c, fr, smp, data⟩ =
      some (wavBytes (36 + smp * c * 16 / 8) c fr (fr * c * 16 / 8) (c * 16 / 8) 16
        (smp * c * 16 / 8) (data.flatMap s16le)) := by
    unfold al_save_wav_stream
    dsimp only
    rw [if_neg (by rcases hc with rfl | rfl <;> norm_num)]
    rw [show data.take (smp * c) = data from by rw [← hlen]; exact List.take_length data]
    simp [wavBytes, List.append_assoc]
  rw [henc]
  rw [Option.some_bind]
  have hds2 : smp * c * 16 / 8 < 2147483648 := by rcases hc with rfl | rfl <;> omega
  unfold decodeAll
  rw [wav_open_wavBytes junk _ c 16 fr _ _ _ _ hc (Or.inr rfl) hf hds2]
  dsimp only
  have hsamp : (if (16 : Nat) = 16 then
      (if c = 2 then (((smp * c * 16 / 8 : Nat) : Int) + 1).tdiv 2
        else ((smp * c * 16 / 8 : Nat) : Int)).tdiv 2
      else (if c = 2 then (((smp * c * 16 / 8 : Nat) : Int) + 1).tdiv 2
        else ((smp * c * 16 / 8 : Nat) : Int))) = (smp : Int) := by
    rw [if_pos rfl]
    rcases hc with rfl | rfl
    · rw [if_neg (by norm_num)]
      rw [Int.tdiv_eq_ediv (Int.natCast_nonneg _) (by norm_num)]
      omega
    · rw [if_pos rfl]
      have hinner : (((smp * 2 * 16 / 8 : Nat) : Int) + 1).tdiv 2 = (2 * smp : Int) := by
        rw [Int.tdiv_eq_ediv (by omega) (by norm_num)]
        omega
      rw [hinner]
      rw [Int.tdiv_eq_ediv (by omega) (by norm_num)]
      omega
  rw [hsamp]
  rw [Int.toNat_natCast smp]
  unfold wav_read
  dsimp only
  rw [if_neg (by decide)]
  rcases hc with rfl | rfl
  · have h44 : FileAt (⟨wavBytes (36 + smp * 1 * 16 / 8) 1 fr (fr * 1 * 16 / 8) (1 * 16 / 8) 16
        (smp * 1 * 16 / 8) (data.flatMap s16le), 44⟩ : File)
        (riffTag ++ u32le (36 + smp * 1 * 16 / 8) ++ waveTag ++ fmtTag ++ u32le 16 ++ u16le 1 ++
          u16le 1 ++ u32le fr ++ u32le (fr * 1 * 16 / 8) ++ u16le (1 * 16 / 8) ++ u16le 16 ++
          dataTag ++ u32le (smp * 1 * 16 / 8))
        (data.flatMap s16le ++ []) := by
      refine ⟨?_, ?_⟩
      · simp [wavBytes, List.append_assoc]
      · norm_num [riffTag, waveTag, fmtTag, dataTag, u16le, u32le]
    have hserial := readS16Loop_serial data _ _ _ hrange h44
    simp only [show ((1 : Nat) : Int).toNat = 1 from rfl]
    rw [show (1 * smp : Nat) = data.length from by omega]
    rw [hserial]
  · have h44 : FileAt (⟨wavBytes (36 + smp * 2 * 16 / 8) 2 fr (fr * 2 * 16 / 8) (2 * 16 / 8) 16
        (smp * 2 * 16 / 8) (data.flatMap s16le), 44⟩ : File)
        (riffTag ++ u32le (36 + smp * 2 * 16 / 8) ++ waveTag ++ fmtTag ++ u32le 16 ++ u16le 1 ++
          u16le 2 ++ u32le fr ++ u32le (fr * 2 * 16 / 8) ++ u16le (2 * 16 / 8) ++ u16le 16 ++
          dataTag ++ u32le (smp * 2 * 16 / 8))
        (data.flatMap s16le ++ []) := by
      refine ⟨?_, ?_⟩
      · simp [wavBytes, List.append_assoc]
      · norm_num [riffTag, waveTag, fmtTag, dataTag, u16le, u32le]
    have hserial := readS16Loop_serial data _ _ _ hrange h44
    simp only [show ((2 : Nat) : Int).toNat = 2 from rfl]
    rw [show (2 * smp : Nat) = data.length from by omega]
    rw [hserial]


/-- Witness for C1 at a concrete stereo buffer. -/
theorem wav_int16_roundtrip_witness :
    (al_save_wav_stream c1buf).bind (decodeAll 0) =
      some ([5, -3, 1000, -32768], 8000, 2, 2) := by
  refine (wav_int16_roundtrip 0 c1buf rfl (Or.inr rfl) (by decide) (by decide)
    (by norm_num [c1buf]) (by norm_num [c1buf])).trans ?_
  norm_num [c1buf]

/-- Witness for C7: requesting 10 frames when 2 whole frames remain
returns 2, and the following request returns 0. -/
theorem wav_read_short_read_witness :
    (wav_read c7w c7f 10).2.1 = 2 ∧
    (wav_read c7w ((wav_read c7w c7f 10).2.2) 4).2.1 = 0 := by
  obtain ⟨h1, h2⟩ := wav_read_short_read c7w c7f 10 (Or.inr rfl) (Or.inl rfl) (by decide)
  exact ⟨h1.trans (by decide), h2 4⟩

end Wav
